import Mathlib

/-!
Verification of the glossary graph engine (`glossary_server.py`).

The Python server keeps three pieces of state inside `GlossaryGraph`:
  * `terms` — a plain `dict` mapping term name to definition,
  * `graph` — a `defaultdict(list)` mapping a source name to the ordered
    list of `(target, relation)` pairs,
  * `reverse_graph` — a `defaultdict(list)` mapping a target name to the
    ordered list of `(source, relation)` pairs.

Python dictionaries are modelled as association lists with insertion-order
semantics: updating an existing key keeps its position, inserting a new
key appends at the end.  A `defaultdict(list)` subscript on a missing key
additionally inserts an empty list (modelled by `ddSubscript`); the query
code always guards a subscript with a membership test, which is what the
frame theorems below are about.
-/

namespace Glossary

/-- `d[k]` read on a plain Python dict: first (and only, since inserts keep
keys unique) entry whose key equals `k`. -/
def dictFind {β : Type} : List (String × β) → String → Option β
  | [], _ => none
  | (k', v) :: rest, k => if k' = k then some v else dictFind rest k

/-- `k in d` on a Python dict. -/
def dictContains {β : Type} (d : List (String × β)) (k : String) : Bool :=
  (dictFind d k).isSome

/-- `d[k] = v` on a Python dict: overwrite in place if the key exists,
otherwise append at the end (insertion order). -/
def dictInsert {β : Type} : List (String × β) → String → β → List (String × β)
  | [], k, v => [(k, v)]
  | (k', v') :: rest, k, v =>
    if k' = k then (k, v) :: rest else (k', v') :: dictInsert rest k v

/-- `d[k]` on a `defaultdict(list)`: returns the stored list, or inserts
and returns an empty list when the key is missing.  The second component
is the dictionary after the access — this is the only query-time primitive
that can mutate state. -/
def ddSubscript {α : Type} (d : List (String × List α)) (k : String) :
    List α × List (String × List α) :=
  match dictFind d k with
  | some l => (l, d)
  | none => ([], d ++ [(k, [])])

/-- `d[k].append(v)` on a `defaultdict(list)` (used only during load). -/
def ddAppend {α : Type} : List (String × List α) → String → α → List (String × List α)
  | [], k, v => [(k, [v])]
  | (k', l) :: rest, k, v =>
    if k' = k then (k', l ++ [v]) :: rest else (k', l) :: ddAppend rest k v

/-- The list iterated by the guarded pattern
`if k in d: for x in d[k]: ...` — the stored list when present, empty
otherwise.  Never mutates. -/
def adjList {α : Type} (d : List (String × List α)) (k : String) : List α :=
  (dictFind d k).getD []

/-- Adjacency dictionaries (`graph` and `reverse_graph`). -/
abbrev Adjacency := List (String × List (String × String))

/-- One row of `links.csv`: columns `source`, `target`, `relation`. -/
structure LinkRow where
  source : String
  target : String
  relation : String
deriving DecidableEq, Repr

/-- The in-memory state of `GlossaryGraph`. -/
structure GlossaryGraph where
  terms : List (String × String)
  graph : List (String × List (String × String))
  reverse_graph : List (String × List (String × String))
deriving DecidableEq, Repr

/-- One iteration of the `_load_terms` row loop:
`self.terms[term_name] = definition`. -/
def loadTermsStep (d : List (String × String)) (r : String × String) :
    List (String × String) :=
  dictInsert d r.1 r.2

/-- `GlossaryGraph._load_terms`: fold the term rows into the `terms` dict
(last row with a given name wins). -/
def loadTerms (rows : List (String × String)) : List (String × String) :=
  rows.foldl loadTermsStep []

/-- One iteration of the `_load_links` row loop: append `(target, relation)`
to `graph[source]` and `(source, relation)` to `reverse_graph[target]`. -/
def loadLinksStep (st : Adjacency × Adjacency) (r : LinkRow) : Adjacency × Adjacency :=
  (ddAppend st.1 r.source (r.target, r.relation),
   ddAppend st.2 r.target (r.source, r.relation))

/-- `GlossaryGraph._load_links`. -/
def loadLinks (rows : List LinkRow) : Adjacency × Adjacency :=
  rows.foldl loadLinksStep ([], [])

/-- `GlossaryGraph.__init__`: load terms, then links, starting from empty
containers. -/
def mkGraph (termRows : List (String × String)) (linkRows : List LinkRow) : GlossaryGraph :=
  { terms := loadTerms termRows
    graph := (loadLinks linkRows).1
    reverse_graph := (loadLinks linkRows).2 }

/-- Result of `GlossaryGraph.get_term`: either the
`{'name': ..., 'definition': ..., 'found': True}` dict or
`{'found': False}`. -/
inductive TermResult where
  | found (name definition : String)
  | notFound
deriving DecidableEq, Repr

/-- `GlossaryGraph.get_term`. -/
def get_term (g : GlossaryGraph) (term_name : String) : TermResult :=
  match dictFind g.terms term_name with
  | some d => .found term_name d
  | none => .notFound

/-- `GlossaryGraph.get_all_terms`: iterate the `terms` dict in insertion
order. -/
def get_all_terms (g : GlossaryGraph) : List (String × String) :=
  g.terms

/-- One `{'source_term', 'target_term', 'relation_type'}` record produced
by `get_term_relations`. -/
structure Relation where
  source_term : String
  target_term : String
  relation_type : String
deriving DecidableEq, Repr

/-- `GlossaryGraph.get_term_relations`: the outgoing edges of `term_name`
appended first, then the incoming ones; `max_depth` is accepted but never
read. -/
def get_term_relations (g : GlossaryGraph) (term_name : String) (_max_depth : Int) :
    List Relation :=
  let relations : List Relation := []
  let relations :=
    if dictContains g.graph term_name then
      (adjList g.graph term_name).foldl
        (fun acc p => acc ++ [⟨term_name, p.1, p.2⟩]) relations
    else relations
  let relations :=
    if dictContains g.reverse_graph term_name then
      (adjList g.reverse_graph term_name).foldl
        (fun acc p => acc ++ [⟨p.1, term_name, p.2⟩]) relations
    else relations
  relations

/-- Result of `GlossaryGraph.find_path` as observed through the facade
(`result.get('path', [])` supplies `[]` when the key is absent). -/
structure PathResult where
  path_exists : Bool
  path : List String
  message : String
deriving DecidableEq, Repr

/-- The inner `for neighbor, _ in ...` loop of `find_path`: scan one
adjacency list; on `neighbor == target_term` return the finished path at
once, otherwise enqueue unvisited neighbours.  Returns the found path (if
any), the visited set and the next-level queue. -/
def processNeighbors (target_term : String) (path : List String) :
    List (String × String) → List String → List (String × List String) →
    Option (List String) × List String × List (String × List String)
  | [], visited, next_level => (none, visited, next_level)
  | (neighbor, _) :: rest, visited, next_level =>
    if neighbor = target_term then
      (some (path ++ [neighbor]), visited, next_level)
    else if neighbor ∈ visited then
      processNeighbors target_term path rest visited next_level
    else
      processNeighbors target_term path rest (neighbor :: visited)
        (next_level ++ [(neighbor, path ++ [neighbor])])

/-- The `for current, path in queue` loop of `find_path`: forward
neighbours first, then reverse neighbours, for each queue entry in
order. -/
def processQueue (g : GlossaryGraph) (target_term : String) :
    List (String × List String) → List String → List (String × List String) →
    Option (List String) × List String × List (String × List String)
  | [], visited, next_level => (none, visited, next_level)
  | (current, path) :: rest, visited, next_level =>
    match processNeighbors target_term path (adjList g.graph current) visited next_level with
    | (some p, v, nl) => (some p, v, nl)
    | (none, v, nl) =>
      match processNeighbors target_term path (adjList g.reverse_graph current) v nl with
      | (some p, v', nl') => (some p, v', nl')
      | (none, v', nl') => processQueue g target_term rest v' nl'

/-- The `while queue and depth < max_depth` loop of `find_path`; the fuel
argument is `max_depth - depth`. -/
def bfsLoop (g : GlossaryGraph) (target_term : String) :
    Nat → List (String × List String) → List String → PathResult
  | 0, _, _ => ⟨false, [], "Путь не найден в пределах максимальной глубины"⟩
  | _ + 1, [], _ => ⟨false, [], "Путь не найден в пределах максимальной глубины"⟩
  | fuel + 1, q :: qs, visited =>
    match processQueue g target_term (q :: qs) visited [] with
    | (some p, _, _) => ⟨true, p, "Путь найден"⟩
    | (none, v, nl) => bfsLoop g target_term fuel nl v

/-- `GlossaryGraph.find_path`. -/
def find_path (g : GlossaryGraph) (source_term target_term : String) (max_depth : Nat) :
    PathResult :=
  if dictContains g.terms source_term = false ∨ dictContains g.terms target_term = false then
    ⟨false, [], "Один или оба термина не найдены"⟩
  else if source_term = target_term then
    ⟨true, [source_term], "Термины совпадают"⟩
  else
    bfsLoop g target_term max_depth [(source_term, [source_term])] [source_term]

/-- `GlossaryService.GetTermRelations`: substitutes depth 1 for a
non-positive request depth and reports the list together with
`total_count = len(relations)`. -/
def GetTermRelations (g : GlossaryGraph) (term_name : String) (max_depth : Int) :
    List Relation × Nat :=
  let l := get_term_relations g term_name (if max_depth > 0 then max_depth else 1)
  (l, l.length)

/-- `GlossaryService.FindPath`: substitutes depth 10 for a non-positive
request depth. -/
def FindPath (g : GlossaryGraph) (source_term target_term : String) (max_depth : Int) :
    PathResult :=
  find_path g source_term target_term (if max_depth > 0 then max_depth.toNat else 10)

/-- Two names are one hop apart when the second appears in the forward or
in the reverse adjacency list of the first — exactly the two edge scans of
`find_path`. -/
def connectedStep (g : GlossaryGraph) (p q : String) : Prop :=
  (∃ rel, (q, rel) ∈ adjList g.graph p) ∨ (∃ rel, (q, rel) ∈ adjList g.reverse_graph p)

/-- Invariant of a BFS queue entry `(current, path)`: the accumulated path
starts at the source `x`, ends at `current`, has exactly `len` nodes, is a
walk over stored edges, repeats no node, and all its nodes are in the
visited set. -/
structure EntryOk (g : GlossaryGraph) (x : String) (len : Nat) (visited : List String)
    (e : String × List String) : Prop where
  head : e.2.head? = some x
  last : e.2.getLast? = some e.1
  len_eq : e.2.length = len
  chain : List.Chain' (connectedStep g) e.2
  nodup : e.2.Nodup
  mem_visited : ∀ n ∈ e.2, n ∈ visited

/-- The §8 sample graph of the spec: three terms `A`, `B`, `C` with
`A uses B` and `B implements C`. -/
def sampleGraph : GlossaryGraph :=
  mkGraph [("A", "defA"), ("B", "defB"), ("C", "defC")]
    [⟨"A", "B", "uses"⟩, ⟨"B", "C", "implements"⟩]

/-!
State-passing versions of the query operations.  The only query-time
primitive able to mutate a `GlossaryGraph` is a `defaultdict` subscript on
a missing key (`ddSubscript`); `get_term` and `get_all_terms` touch only
the plain `terms` dict (membership test and guarded read, never mutating),
so their state component is the input graph by the semantics of Python
dicts.  `get_term_relations` and `find_path` subscript the two
defaultdicts, always behind an `in` guard, and the versions below make
that access (and the state it threads) explicit.
-/

/-- `GlossaryGraph.get_term` with its (read-only) state. -/
def get_term_st (g : GlossaryGraph) (term_name : String) : TermResult × GlossaryGraph :=
  (get_term g term_name, g)

/-- `GlossaryGraph.get_all_terms` with its (read-only) state. -/
def get_all_terms_st (g : GlossaryGraph) : List (String × String) × GlossaryGraph :=
  (get_all_terms g, g)

/-- `GlossaryGraph.get_term_relations` with the two guarded `defaultdict`
accesses made explicit; returns the relation list and the state after the
call. -/
def get_term_relations_st (g : GlossaryGraph) (term_name : String) (_max_depth : Int) :
    List Relation × GlossaryGraph :=
  let step1 :=
    if dictContains g.graph term_name then
      let s := ddSubscript g.graph term_name
      (s.1.foldl (fun acc p => acc ++ [(⟨term_name, p.1, p.2⟩ : Relation)]) [], s.2)
    else ([], g.graph)
  let step2 :=
    if dictContains g.reverse_graph term_name then
      let s := ddSubscript g.reverse_graph term_name
      (s.1.foldl (fun acc p => acc ++ [(⟨p.1, term_name, p.2⟩ : Relation)]) step1.1, s.2)
    else (step1.1, g.reverse_graph)
  (step2.1, ⟨g.terms, step1.2, step2.2⟩)

/-- The queue loop of `find_path` with the guarded `defaultdict` accesses
made explicit, threading both adjacency dicts. -/
def processQueue_st (target_term : String) :
    List (String × List String) → List String → List (String × List String) →
    Adjacency → Adjacency →
    Option (List String) × List String × List (String × List String) × Adjacency × Adjacency
  | [], visited, next_level, fw, rv => (none, visited, next_level, fw, rv)
  | (current, path) :: rest, visited, next_level, fw, rv =>
    let sf := if dictContains fw current then ddSubscript fw current else ([], fw)
    match processNeighbors target_term path sf.1 visited next_level with
    | (some p, v, nl) => (some p, v, nl, sf.2, rv)
    | (none, v, nl) =>
      let sr := if dictContains rv current then ddSubscript rv current else ([], rv)
      match processNeighbors target_term path sr.1 v nl with
      | (some p, v', nl') => (some p, v', nl', sf.2, sr.2)
      | (none, v', nl') => processQueue_st target_term rest v' nl' sf.2 sr.2

/-- The round loop of `find_path`, threading both adjacency dicts. -/
def bfsLoop_st (target_term : String) :
    Nat → List (String × List String) → List String → Adjacency → Adjacency →
    PathResult × Adjacency × Adjacency
  | 0, _, _, fw, rv => (⟨false, [], "Путь не найден в пределах максимальной глубины"⟩, fw, rv)
  | _ + 1, [], _, fw, rv =>
    (⟨false, [], "Путь не найден в пределах максимальной глубины"⟩, fw, rv)
  | fuel + 1, q :: qs, visited, fw, rv =>
    match processQueue_st target_term (q :: qs) visited [] fw rv with
    | (some p, _, _, fw', rv') => (⟨true, p, "Путь найден"⟩, fw', rv')
    | (none, v, nl, fw', rv') => bfsLoop_st target_term fuel nl v fw' rv'

/-- `GlossaryGraph.find_path` with its state. -/
def find_path_st (g : GlossaryGraph) (source_term target_term : String) (max_depth : Nat) :
    PathResult × GlossaryGraph :=
  if dictContains g.terms source_term = false ∨ dictContains g.terms target_term = false then
    (⟨false, [], "Один или оба термина не найдены"⟩, g)
  else if source_term = target_term then
    (⟨true, [source_term], "Термины совпадают"⟩, g)
  else
    let r := bfsLoop_st target_term max_depth [(source_term, [source_term])] [source_term]
      g.graph g.reverse_graph
    (r.1, ⟨g.terms, r.2.1, r.2.2⟩)

/-! ## Dictionary lemmas -/

lemma dictFind_dictInsert {β : Type} (d : List (String × β)) (k k' : String) (v : β) :
    dictFind (dictInsert d k v) k' = if k = k' then some v else dictFind d k' := by
  induction d with
  | nil => simp [dictInsert, dictFind]
  | cons hd tl ih =>
    obtain ⟨k0, v0⟩ := hd
    by_cases h0 : k0 = k
    · subst h0
      simp only [dictInsert, if_pos rfl, dictFind]
      split_ifs <;> simp_all
    · simp only [dictInsert, if_neg h0, dictFind, ih]
      split_ifs <;> simp_all

lemma adjList_of_not_contains {α : Type} {d : List (String × List α)} {k : String}
    (h : dictContains d k = false) : adjList d k = [] := by
  unfold dictContains at h
  unfold adjList
  cases hf : dictFind d k with
  | none => rfl
  | some l => rw [hf] at h; simp at h

lemma adjList_of_contains {α : Type} {d : List (String × List α)} {k : String}
    (h : dictContains d k = true) : dictFind d k = some (adjList d k) := by
  unfold dictContains at h
  unfold adjList
  cases hf : dictFind d k with
  | none => rw [hf] at h; simp at h
  | some l => rfl

lemma dictFind_ddAppend {α : Type} (d : List (String × List α)) (k k' : String) (v : α) :
    dictFind (ddAppend d k v) k' =
      if k = k' then some (adjList d k' ++ [v]) else dictFind d k' := by
  induction d with
  | nil => simp [ddAppend, dictFind, adjList]
  | cons hd tl ih =>
    obtain ⟨k0, l0⟩ := hd
    by_cases h0 : k0 = k
    · subst h0
      simp only [ddAppend, if_pos rfl, dictFind, adjList]
      split_ifs <;> simp_all
    · simp only [ddAppend, if_neg h0, dictFind, ih, adjList]
      split_ifs <;> simp_all

lemma adjList_ddAppend {α : Type} (d : List (String × List α)) (k k' : String) (v : α) :
    adjList (ddAppend d k v) k' =
      if k = k' then adjList d k' ++ [v] else adjList d k' := by
  unfold adjList
  rw [dictFind_ddAppend]
  split_ifs <;> simp [adjList]

/-! ## Load-phase characterisations -/

/-- After folding the link rows, each forward adjacency list holds exactly
the `(target, relation)` pairs of the rows with that source, in ingestion
order, and symmetrically for the reverse index. -/
lemma loadLinks_foldl (rows : List LinkRow) (fw rv : Adjacency) (s t : String) :
    adjList (rows.foldl loadLinksStep (fw, rv)).1 s =
      adjList fw s ++ (rows.filter fun r => decide (r.source = s)).map
        (fun r => (r.target, r.relation)) ∧
    adjList (rows.foldl loadLinksStep (fw, rv)).2 t =
      adjList rv t ++ (rows.filter fun r => decide (r.target = t)).map
        (fun r => (r.source, r.relation)) := by
  induction rows generalizing fw rv with
  | nil => simp
  | cons r rest ih =>
    simp only [List.foldl_cons, List.filter_cons]
    obtain ⟨ih1, ih2⟩ :=
      ih (ddAppend fw r.source (r.target, r.relation))
        (ddAppend rv r.target (r.source, r.relation))
    constructor
    · rw [show (loadLinksStep (fw, rv) r) =
          (ddAppend fw r.source (r.target, r.relation),
           ddAppend rv r.target (r.source, r.relation)) from rfl,
        ih1, adjList_ddAppend]
      by_cases h : r.source = s <;> simp [h]
    · rw [show (loadLinksStep (fw, rv) r) =
          (ddAppend fw r.source (r.target, r.relation),
           ddAppend rv r.target (r.source, r.relation)) from rfl,
        ih2, adjList_ddAppend]
      by_cases h : r.target = t <;> simp [h]

/-- Folding term rows whose names all differ from `name` does not change
what `name` maps to. -/
lemma loadTerms_foldl_untouched (post : List (String × String))
    (d : List (String × String)) (name : String) (h : ∀ r ∈ post, r.1 ≠ name) :
    dictFind (post.foldl loadTermsStep d) name = dictFind d name := by
  induction post generalizing d with
  | nil => rfl
  | cons r rest ih =>
    simp only [List.foldl_cons]
    rw [ih _ fun q hq => h q (List.mem_cons_of_mem _ hq)]
    unfold loadTermsStep
    rw [dictFind_dictInsert]
    exact if_neg (h r (List.mem_cons_self _ _))

/-- Appending one element at a time inside a `foldl` (Python
`relations.append(...)` in a loop) produces `init ++ l.map f`. -/
lemma foldl_append_singleton {α β : Type} (l : List α) (f : α → β) (init : List β) :
    l.foldl (fun acc p => acc ++ [f p]) init = init ++ l.map f := by
  induction l generalizing init with
  | nil => simp
  | cons a rest ih => simp [ih]

/-- `get_term_relations` never reads its depth argument. -/
lemma get_term_relations_depth_irrel (g : GlossaryGraph) (name : String) (a b : Int) :
    get_term_relations g name a = get_term_relations g name b := rfl

/-! ## Claims about loading -/

/-- C2: the reverse adjacency is exactly the transpose of the forward
adjacency: after ingesting the relation rows, `forward[s]` is the list of
`(target, relation)` pairs of the rows with source `s` in ingestion order,
`reverse[t]` is the list of `(source, relation)` pairs of the rows with
target `t` in ingestion order, and `(t, ty)` is a stored forward edge of
`s` precisely when `(s, ty)` is a stored reverse edge of `t`. -/
theorem C2_reverse_transpose (rows : List LinkRow) (s t ty : String) :
    adjList (loadLinks rows).1 s =
      (rows.filter fun r => decide (r.source = s)).map (fun r => (r.target, r.relation)) ∧
    adjList (loadLinks rows).2 t =
      (rows.filter fun r => decide (r.target = t)).map (fun r => (r.source, r.relation)) ∧
    ((t, ty) ∈ adjList (loadLinks rows).1 s ↔ (s, ty) ∈ adjList (loadLinks rows).2 t) := by
  obtain ⟨h1, h2⟩ := loadLinks_foldl rows [] [] s t
  have e1 : adjList (loadLinks rows).1 s =
      (rows.filter fun r => decide (r.source = s)).map (fun r => (r.target, r.relation)) := by
    unfold loadLinks
    rw [h1]
    rfl
  have e2 : adjList (loadLinks rows).2 t =
      (rows.filter fun r => decide (r.target = t)).map (fun r => (r.source, r.relation)) := by
    unfold loadLinks
    rw [h2]
    rfl
  refine ⟨e1, e2, ?_⟩
  rw [e1, e2]
  simp only [List.mem_map, List.mem_filter, decide_eq_true_eq, Prod.mk.injEq]
  constructor
  · rintro ⟨r, ⟨hr, hs⟩, ht, hty⟩
    exact ⟨r, ⟨hr, ht⟩, hs, hty⟩
  · rintro ⟨r, ⟨hr, ht⟩, hs, hty⟩
    exact ⟨r, ⟨hr, hs⟩, ht, hty⟩

/-- C7: if a name occurs among the term rows, `get_term` finds it with the
definition of the last row carrying that name (last-write-wins): here the
rows are split as `pre ++ (name, defn) :: post` with no row of `post`
carrying `name`. -/
theorem C7_last_write_wins (pre post : List (String × String)) (fw rv : Adjacency)
    (name defn : String) (h : ∀ r ∈ post, r.1 ≠ name) :
    get_term ⟨loadTerms (pre ++ (name, defn) :: post), fw, rv⟩ name =
      .found name defn := by
  unfold get_term
  have hfind : dictFind (loadTerms (pre ++ (name, defn) :: post)) name = some defn := by
    unfold loadTerms
    rw [List.foldl_append, List.foldl_cons, loadTerms_foldl_untouched post _ name h]
    unfold loadTermsStep
    rw [dictFind_dictInsert]
    simp
  rw [hfind]

/-- Witness for C7: two rows named `A`, the later definition wins, and a
later row with a different name does not disturb it. -/
theorem C7_last_write_wins_witness :
    (∀ r ∈ [(("B" : String), ("z" : String))], r.1 ≠ "A") ∧
    get_term ⟨loadTerms ([("A", "x")] ++ ("A", "y") :: [("B", "z")]), [], []⟩ "A" =
      .found "A" "y" :=
  ⟨by decide, C7_last_write_wins [("A", "x")] [("B", "z")] [] [] "A" "y" (by decide)⟩

/-! ## Claims about `find_path` boundary behaviour -/

/-- C3: for a term known to the store, `find_path(x, x, d)` succeeds with
the single-node path `[x]` for every depth bound and every pair of
adjacency dicts — the relation set is never consulted. -/
theorem C3_trivial_self_path (t : List (String × String)) (fw rv : Adjacency)
    (x : String) (d : Nat) (h : dictContains t x = true) :
    find_path ⟨t, fw, rv⟩ x x d = ⟨true, [x], "Термины совпадают"⟩ := by
  unfold find_path
  simp [h]

/-- Witness for C3 at a concrete store, empty adjacency and depth 0. -/
theorem C3_trivial_self_path_witness :
    dictContains [("A", "defA")] "A" = true ∧
    find_path ⟨[("A", "defA")], [], []⟩ "A" "A" 0 = ⟨true, ["A"], "Термины совпадают"⟩ :=
  ⟨by decide, C3_trivial_self_path [("A", "defA")] [] [] "A" 0 (by decide)⟩

/-- C4: if either name is absent from the term store, `find_path` reports
failure with an empty path and the explanatory message, for every depth
bound and every pair of adjacency dicts — so even names connected by
stored edges yield the not-found result. -/
theorem C4_unknown_term (t : List (String × String)) (fw rv : Adjacency)
    (x y : String) (d : Nat)
    (h : dictContains t x = false ∨ dictContains t y = false) :
    find_path ⟨t, fw, rv⟩ x y d = ⟨false, [], "Один или оба термина не найдены"⟩ := by
  unfold find_path
  rcases h with h | h <;> simp [h]

/-- Witness for C4: `A` and `B` are joined by a stored edge but absent
from the term store, and the search still reports not-found. -/
theorem C4_unknown_term_witness :
    (dictContains ([] : List (String × String)) "A" = false ∨
      dictContains ([] : List (String × String)) "B" = false) ∧
    find_path ⟨[], (loadLinks [⟨"A", "B", "uses"⟩]).1, (loadLinks [⟨"A", "B", "uses"⟩]).2⟩
        "A" "B" 10 = ⟨false, [], "Один или оба термина не найдены"⟩ :=
  ⟨Or.inl (by decide),
    C4_unknown_term [] (loadLinks [⟨"A", "B", "uses"⟩]).1
      (loadLinks [⟨"A", "B", "uses"⟩]).2 "A" "B" 10 (Or.inl (by decide))⟩

/-- C5: with depth bound 0 and two distinct known terms, `find_path`
reports failure regardless of connectivity (zero expansion rounds run). -/
theorem C5_zero_depth (g : GlossaryGraph) (x y : String)
    (hx : dictContains g.terms x = true) (hy : dictContains g.terms y = true)
    (hxy : x ≠ y) :
    (find_path g x y 0).path_exists = false := by
  unfold find_path
  simp [hx, hy, hxy, bfsLoop]

/-- Witness for C5 on a graph where `A` and `B` are directly connected. -/
theorem C5_zero_depth_witness :
    dictContains (mkGraph [("A", "a"), ("B", "b")] [⟨"A", "B", "uses"⟩]).terms "A" = true ∧
    dictContains (mkGraph [("A", "a"), ("B", "b")] [⟨"A", "B", "uses"⟩]).terms "B" = true ∧
    "A" ≠ "B" ∧
    (find_path (mkGraph [("A", "a"), ("B", "b")] [⟨"A", "B", "uses"⟩]) "A" "B" 0).path_exists
      = false :=
  ⟨by decide, by decide, by decide,
    C5_zero_depth (mkGraph [("A", "a"), ("B", "b")] [⟨"A", "B", "uses"⟩]) "A" "B"
      (by decide) (by decide) (by decide)⟩

/-! ## Claims about relation listing -/

/-- C6: `get_term_relations` returns the outgoing edges first, reported as
`(name, target, type)` in adjacency order, then the incoming edges,
reported as `(source, name, type)` in adjacency order; its length is the
sum of the two adjacency-list lengths, and the facade's `total_count` is
that length. -/
theorem C6_relations_shape (g : GlossaryGraph) (name : String) (mx d : Int) :
    get_term_relations g name mx =
      (adjList g.graph name).map (fun p => ⟨name, p.1, p.2⟩) ++
        (adjList g.reverse_graph name).map (fun p => ⟨p.1, name, p.2⟩) ∧
    (get_term_relations g name mx).length =
      (adjList g.graph name).length + (adjList g.reverse_graph name).length ∧
    (GetTermRelations g name d).2 = (get_term_relations g name mx).length := by
  have h1 : get_term_relations g name mx =
      (adjList g.graph name).map (fun p => ⟨name, p.1, p.2⟩) ++
        (adjList g.reverse_graph name).map (fun p => ⟨p.1, name, p.2⟩) := by
    unfold get_term_relations
    by_cases hf : dictContains g.graph name <;>
      by_cases hr : dictContains g.reverse_graph name <;>
        simp [hf, hr, foldl_append_singleton, adjList_of_not_contains]
  refine ⟨h1, ?_, ?_⟩
  · rw [h1]
    simp
  · rfl

/-- C9: the facade result (relation list and count) is independent of the
caller-supplied depth, positive or not. -/
theorem C9_depth_independent (g : GlossaryGraph) (name : String) (d1 d2 : Int) :
    GetTermRelations g name d1 = GetTermRelations g name d2 := rfl

/-! ## BFS invariants -/

lemma EntryOk.mono {g : GlossaryGraph} {x : String} {len : Nat}
    {v v' : List String} {e : String × List String}
    (h : EntryOk g x len v e) (hsub : ∀ n ∈ v, n ∈ v') : EntryOk g x len v' e :=
  ⟨h.head, h.last, h.len_eq, h.chain, h.nodup, fun n hn => hsub n (h.mem_visited n hn)⟩

/-- Extending a sound queue entry by a yet-unvisited neighbour of its
endpoint yields a path with all the walk properties, one node longer. -/
lemma EntryOk.extend {g : GlossaryGraph} {x : String} {len : Nat}
    {visited : List String} {current : String} {path : List String} {n : String}
    (h : EntryOk g x len visited (current, path))
    (hconn : connectedStep g current n) (hn : n ∉ visited) :
    (path ++ [n]).head? = some x ∧ (path ++ [n]).getLast? = some n ∧
    (path ++ [n]).length = len + 1 ∧
    List.Chain' (connectedStep g) (path ++ [n]) ∧ (path ++ [n]).Nodup := by
  have hne : path ≠ [] := by
    intro hE
    have := h.head
    rw [hE] at this
    simp at this
  refine ⟨?_, ?_, ?_, ?_, ?_⟩
  · rw [List.head?_append_of_ne_nil _ hne]
    exact h.head
  · rw [List.getLast?_append_cons]
    rfl
  · have hlen : path.length = len := h.len_eq
    simp only [List.length_append, List.length_singleton]
    omega
  · refine List.Chain'.append h.chain (List.chain'_singleton n) ?_
    intro a ha b hb
    have hlast := h.last
    rw [hlast] at ha
    simp only [Option.mem_def, Option.some.injEq] at ha
    simp only [List.head?_cons, Option.mem_def, Option.some.injEq] at hb
    subst ha
    subst hb
    exact hconn
  · rw [List.nodup_append]
    refine ⟨h.nodup, List.nodup_singleton n, ?_⟩
    intro a ha hb
    simp only [List.mem_singleton] at hb
    subst hb
    exact hn (h.mem_visited a ha)

/-- Soundness of the inner neighbour scan: visited only grows, the target
never enters the visited set, a returned path extends the entry's path to
the target with every walk property, and when no path is returned every
next-level entry satisfies the invariant at the grown visited set. -/
lemma processNeighbors_sound {g : GlossaryGraph} {x y current : String} {len : Nat}
    {path : List String} (neighbors : List (String × String)) :
    ∀ (visited : List String) (nl : List (String × List String)),
      (∀ q ∈ neighbors, connectedStep g current q.1) →
      EntryOk g x len visited (current, path) →
      y ∉ visited →
      (∀ e ∈ nl, EntryOk g x (len + 1) visited e) →
      (∀ n ∈ visited, n ∈ (processNeighbors y path neighbors visited nl).2.1) ∧
      y ∉ (processNeighbors y path neighbors visited nl).2.1 ∧
      (∀ p, (processNeighbors y path neighbors visited nl).1 = some p →
        p.head? = some x ∧ p.getLast? = some y ∧ p.length = len + 1 ∧
        List.Chain' (connectedStep g) p ∧ p.Nodup) ∧
      ((processNeighbors y path neighbors visited nl).1 = none →
        ∀ e ∈ (processNeighbors y path neighbors visited nl).2.2,
          EntryOk g x (len + 1) (processNeighbors y path neighbors visited nl).2.1 e) := by
  induction neighbors with
  | nil =>
    intro visited nl _ _ hy hnl
    simp only [processNeighbors]
    exact ⟨fun n hn => hn, hy, fun p hp => by simp at hp, fun _ => hnl⟩
  | cons q rest ih =>
    obtain ⟨n, r⟩ := q
    intro visited nl hconn hentry hy hnl
    by_cases hny : n = y
    · subst hny
      simp only [processNeighbors, if_pos rfl]
      have hext := hentry.extend (hconn (n, r) (List.mem_cons_self _ _)) hy
      refine ⟨fun m hm => hm, hy, ?_, ?_⟩
      · intro p hp
        have hp' : some (path ++ [n]) = some p := hp
        obtain rfl := Option.some.inj hp'
        exact hext
      · intro hcontra
        exact (Option.some_ne_none _ hcontra).elim
    · by_cases hnv : n ∈ visited
      · simp only [processNeighbors, if_neg hny, if_pos hnv]
        exact ih visited nl (fun q hq => hconn q (List.mem_cons_of_mem _ hq)) hentry hy hnl
      · simp only [processNeighbors, if_neg hny, if_neg hnv]
        have hconnN := hconn (n, r) (List.mem_cons_self _ _)
        have hext := hentry.extend hconnN hnv
        have hsub : ∀ m ∈ visited, m ∈ n :: visited :=
          fun m hm => List.mem_cons_of_mem _ hm
        have hyn : y ∉ n :: visited := by
          intro hmem
          rcases List.mem_cons.1 hmem with h1 | h1
          · exact hny h1.symm
          · exact hy h1
        have hnl' : ∀ e ∈ nl ++ [(n, path ++ [n])], EntryOk g x (len + 1) (n :: visited) e := by
          intro e he
          rcases List.mem_append.1 he with h1 | h1
          · exact (hnl e h1).mono hsub
          · simp only [List.mem_singleton] at h1
            subst h1
            obtain ⟨e1, e2, e3, e4, e5⟩ := hext
            refine ⟨e1, e2, e3, e4, e5, ?_⟩
            intro m hm
            rcases List.mem_append.1 hm with h2 | h2
            · exact List.mem_cons_of_mem _ (hentry.mem_visited m h2)
            · simp only [List.mem_singleton] at h2
              subst h2
              exact List.mem_cons_self _ _
        obtain ⟨r1, r2, r3, r4⟩ :=
          ih (n :: visited) (nl ++ [(n, path ++ [n])])
            (fun q hq => hconn q (List.mem_cons_of_mem _ hq))
            (hentry.mono hsub) hyn hnl'
        exact ⟨fun m hm => r1 m (hsub m hm), r2, r3, r4⟩

/-- Soundness of one BFS round over the whole queue: same shape as
`processNeighbors_sound`, scanning forward then reverse adjacency for each
entry in order. -/
lemma processQueue_sound {g : GlossaryGraph} {x y : String} {len : Nat}
    (queue : List (String × List String)) :
    ∀ (visited : List String) (nl : List (String × List String)),
      (∀ e ∈ queue, EntryOk g x len visited e) →
      y ∉ visited →
      (∀ e ∈ nl, EntryOk g x (len + 1) visited e) →
      (∀ n ∈ visited, n ∈ (processQueue g y queue visited nl).2.1) ∧
      y ∉ (processQueue g y queue visited nl).2.1 ∧
      (∀ p, (processQueue g y queue visited nl).1 = some p →
        p.head? = some x ∧ p.getLast? = some y ∧ p.length = len + 1 ∧
        List.Chain' (connectedStep g) p ∧ p.Nodup) ∧
      ((processQueue g y queue visited nl).1 = none →
        ∀ e ∈ (processQueue g y queue visited nl).2.2,
          EntryOk g x (len + 1) (processQueue g y queue visited nl).2.1 e) := by
  induction queue with
  | nil =>
    intro visited nl _ hy hnl
    simp only [processQueue]
    exact ⟨fun n hn => hn, hy, fun p hp => by simp at hp, fun _ => hnl⟩
  | cons entry rest ih =>
    obtain ⟨current, path⟩ := entry
    intro visited nl hq hy hnl
    have hentry := hq (current, path) (List.mem_cons_self _ _)
    have hconnF : ∀ q ∈ adjList g.graph current, connectedStep g current q.1 :=
      fun q hq' => Or.inl ⟨q.2, by simpa using hq'⟩
    have hconnR : ∀ q ∈ adjList g.reverse_graph current, connectedStep g current q.1 :=
      fun q hq' => Or.inr ⟨q.2, by simpa using hq'⟩
    obtain ⟨a1, a2, a3, a4⟩ :=
      processNeighbors_sound (adjList g.graph current) visited nl hconnF hentry hy hnl
    rcases hpn1 : processNeighbors y path (adjList g.graph current) visited nl
      with ⟨res1, v1, nl1⟩
    rw [hpn1] at a1 a2 a3 a4
    simp only at a1 a2 a3 a4
    cases res1 with
    | some p =>
      simp only [processQueue, hpn1]
      exact ⟨a1, a2, a3, fun hcontra => (Option.some_ne_none _ hcontra).elim⟩
    | none =>
      have hnl1 := a4 rfl
      obtain ⟨b1, b2, b3, b4⟩ :=
        processNeighbors_sound (adjList g.reverse_graph current) v1 nl1 hconnR
          (hentry.mono a1) a2 hnl1
      rcases hpn2 : processNeighbors y path (adjList g.reverse_graph current) v1 nl1
        with ⟨res2, v2, nl2⟩
      rw [hpn2] at b1 b2 b3 b4
      simp only at b1 b2 b3 b4
      cases res2 with
      | some p =>
        simp only [processQueue, hpn1, hpn2]
        exact ⟨fun m hm => b1 m (a1 m hm), b2, b3,
          fun hcontra => (Option.some_ne_none _ hcontra).elim⟩
      | none =>
        have hnl2 := b4 rfl
        obtain ⟨c1, c2, c3, c4⟩ :=
          ih v2 nl2
            (fun e he => (hq e (List.mem_cons_of_mem _ he)).mono
              (fun m hm => b1 m (a1 m hm)))
            b2 hnl2
        simp only [processQueue, hpn1, hpn2]
        exact ⟨fun m hm => c1 m (b1 m (a1 m hm)), c2, c3, c4⟩

/-- Soundness of the depth-bounded round loop: from a queue whose entries
all carry sound paths of `len` nodes, a successful search within `fuel`
further rounds yields a path from `x` to `y` of at most `len + fuel`
nodes that is a duplicate-free walk over stored edges. -/
lemma bfsLoop_sound {g : GlossaryGraph} {x y : String} :
    ∀ (fuel len : Nat) (queue : List (String × List String)) (visited : List String),
      (∀ e ∈ queue, EntryOk g x len visited e) →
      y ∉ visited →
      (bfsLoop g y fuel queue visited).path_exists = true →
      (bfsLoop g y fuel queue visited).path.head? = some x ∧
      (bfsLoop g y fuel queue visited).path.getLast? = some y ∧
      (bfsLoop g y fuel queue visited).path.length ≤ len + fuel ∧
      List.Chain' (connectedStep g) (bfsLoop g y fuel queue visited).path ∧
      (bfsLoop g y fuel queue visited).path.Nodup := by
  intro fuel
  induction fuel with
  | zero =>
    intro len queue visited _ _ hex
    simp [bfsLoop] at hex
  | succ fuel ih =>
    intro len queue visited hq hy hex
    cases queue with
    | nil => simp [bfsLoop] at hex
    | cons q qs =>
      obtain ⟨s1, s2, s3, s4⟩ :=
        processQueue_sound (q :: qs) visited [] hq hy (by intro e he; simp at he)
      rcases hpq : processQueue g y (q :: qs) visited [] with ⟨res, v, nl⟩
      rw [hpq] at s1 s2 s3 s4
      simp only at s1 s2 s3 s4
      cases res with
      | some p =>
        have hbl : bfsLoop g y (fuel + 1) (q :: qs) visited = ⟨true, p, "Путь найден"⟩ := by
          simp only [bfsLoop, hpq]
        rw [hbl]
        obtain ⟨f1, f2, f3, f4, f5⟩ := s3 p rfl
        refine ⟨f1, f2, ?_, f4, f5⟩
        show p.length ≤ len + (fuel + 1)
        omega
      | none =>
        have hbl : bfsLoop g y (fuel + 1) (q :: qs) visited = bfsLoop g y fuel nl v := by
          simp only [bfsLoop, hpq]
        rw [hbl] at hex ⊢
        obtain ⟨a1, a2, a3, a4, a5⟩ := ih (len + 1) nl v (s4 rfl) s2 hex
        exact ⟨a1, a2, by omega, a4, a5⟩

/-- Soundness of `find_path`: any successful result carries a path from
the source to the target of at most `d + 1` nodes that is a
duplicate-free walk over stored edges (in either direction). -/
lemma find_path_sound (g : GlossaryGraph) (x y : String) (d : Nat)
    (h : (find_path g x y d).path_exists = true) :
    (find_path g x y d).path.head? = some x ∧
    (find_path g x y d).path.getLast? = some y ∧
    (find_path g x y d).path.length ≤ d + 1 ∧
    List.Chain' (connectedStep g) (find_path g x y d).path ∧
    (find_path g x y d).path.Nodup := by
  unfold find_path at h ⊢
  by_cases hc : dictContains g.terms x = false ∨ dictContains g.terms y = false
  · rw [if_pos hc] at h
    simp at h
  · rw [if_neg hc] at h ⊢
    by_cases hxy : x = y
    · rw [if_pos hxy] at h ⊢
      subst hxy
      exact ⟨rfl, rfl, by simp, List.chain'_singleton x, List.nodup_singleton x⟩
    · rw [if_neg hxy] at h ⊢
      have hq : ∀ e ∈ [(x, [x])], EntryOk g x 1 [x] e := by
        intro e he
        simp only [List.mem_singleton] at he
        subst he
        exact ⟨rfl, rfl, rfl, List.chain'_singleton x, List.nodup_singleton x,
          fun n hn => hn⟩
      have hy : y ∉ [x] := by
        simp only [List.mem_singleton]
        exact fun hyx => hxy hyx.symm
      obtain ⟨a1, a2, a3, a4, a5⟩ := bfsLoop_sound d 1 [(x, [x])] [x] hq hy h
      exact ⟨a1, a2, by omega, a4, a5⟩

/-- C1: if `find_path(x, y, d)` reports `path_exists = true`, the returned
path is a non-empty sequence starting at `x` and ending at `y`, has at
most `d + 1` nodes, and each consecutive pair `(p, q)` is joined by a
stored edge in either direction (`q` in `forward[p]` or in
`reverse[p]`). -/
theorem C1_successful_path_is_bounded_walk (g : GlossaryGraph) (x y : String) (d : Nat)
    (h : (find_path g x y d).path_exists = true) :
    (find_path g x y d).path ≠ [] ∧
    (find_path g x y d).path.head? = some x ∧
    (find_path g x y d).path.getLast? = some y ∧
    (find_path g x y d).path.length ≤ d + 1 ∧
    List.Chain' (connectedStep g) (find_path g x y d).path := by
  obtain ⟨a1, a2, a3, a4, _⟩ := find_path_sound g x y d h
  refine ⟨?_, a1, a2, a3, a4⟩
  intro hnil
  rw [hnil] at a1
  simp at a1

/-- Witness for C1 on the sample graph: the search from `A` to `C`
succeeds, so the theorem applies. -/
theorem C1_successful_path_is_bounded_walk_witness :
    (find_path sampleGraph "A" "C" 10).path_exists = true ∧
    ((find_path sampleGraph "A" "C" 10).path ≠ [] ∧
      (find_path sampleGraph "A" "C" 10).path.head? = some "A" ∧
      (find_path sampleGraph "A" "C" 10).path.getLast? = some "C" ∧
      (find_path sampleGraph "A" "C" 10).path.length ≤ 10 + 1 ∧
      List.Chain' (connectedStep sampleGraph) (find_path sampleGraph "A" "C" 10).path) :=
  ⟨by decide, C1_successful_path_is_bounded_walk sampleGraph "A" "C" 10 (by decide)⟩

/-- C10: every path returned by a successful `find_path` is simple — no
term name occurs twice in it. -/
theorem C10_successful_path_is_simple (g : GlossaryGraph) (x y : String) (d : Nat)
    (h : (find_path g x y d).path_exists = true) :
    (find_path g x y d).path.Nodup :=
  (find_path_sound g x y d h).2.2.2.2

/-- Witness for C10 on the sample graph: the reverse-direction search from
`C` to `A` succeeds, so the theorem applies. -/
theorem C10_successful_path_is_simple_witness :
    (find_path sampleGraph "C" "A" 10).path_exists = true ∧
    (find_path sampleGraph "C" "A" 10).path.Nodup :=
  ⟨by decide, C10_successful_path_is_simple sampleGraph "C" "A" 10 (by decide)⟩

/-! ## Frame: queries do not mutate the graph -/

/-- A `defaultdict` subscript on a key that is present returns the state
unchanged. -/
lemma ddSubscript_state_of_contains {α : Type} {d : List (String × List α)} {k : String}
    (h : dictContains d k = true) : (ddSubscript d k).2 = d := by
  unfold ddSubscript
  rw [adjList_of_contains h]

/-- The guarded access pattern `if k in d: d[k]` reads `adjList` and
leaves the dictionary unchanged. -/
lemma ddGuard_state {α : Type} (d : List (String × List α)) (k : String) :
    (if dictContains d k then ddSubscript d k else ([], d)) = (adjList d k, d) := by
  by_cases h : dictContains d k
  · rw [if_pos h]
    unfold ddSubscript
    rw [adjList_of_contains h]
  · rw [if_neg h]
    have hf : dictContains d k = false := by simpa using h
    rw [adjList_of_not_contains hf]

/-- One BFS round over the queue returns both adjacency dicts unchanged:
every subscript is guarded by a membership test. -/
lemma processQueue_st_state (y : String) :
    ∀ (queue : List (String × List String)) (visited : List String)
      (nl : List (String × List String)) (fw rv : Adjacency),
      (processQueue_st y queue visited nl fw rv).2.2.2 = (fw, rv) := by
  intro queue
  induction queue with
  | nil => intro visited nl fw rv; rfl
  | cons e rest ih =>
    obtain ⟨current, path⟩ := e
    intro visited nl fw rv
    simp only [processQueue_st, ddGuard_state]
    rcases hpn1 : processNeighbors y path (adjList fw current) visited nl with ⟨res1, v1, nl1⟩
    cases res1 with
    | some p => rfl
    | none =>
      rcases hpn2 : processNeighbors y path (adjList rv current) v1 nl1 with ⟨res2, v2, nl2⟩
      cases res2 with
      | some p => simp only [hpn2]
      | none =>
        simp only [hpn2]
        exact ih v2 nl2 fw rv

/-- The whole round loop returns both adjacency dicts unchanged. -/
lemma bfsLoop_st_state (y : String) :
    ∀ (fuel : Nat) (queue : List (String × List String)) (visited : List String)
      (fw rv : Adjacency),
      (bfsLoop_st y fuel queue visited fw rv).2 = (fw, rv) := by
  intro fuel
  induction fuel with
  | zero => intro queue visited fw rv; rfl
  | succ fuel ih =>
    intro queue visited fw rv
    cases queue with
    | nil => rfl
    | cons q qs =>
      rcases hpq : processQueue_st y (q :: qs) visited [] fw rv with ⟨res, v, nl, fw', rv'⟩
      have hst : (fw', rv') = (fw, rv) := by
        have h := processQueue_st_state y (q :: qs) visited [] fw rv
        rw [hpq] at h
        exact h
      injection hst with h1 h2
      subst h1
      subst h2
      simp only [bfsLoop_st, hpq]
      cases res with
      | some p => rfl
      | none => exact ih nl v fw' rv'

/-- C8: every query — `get_term`, `get_all_terms`, `get_term_relations`
and `find_path` — leaves the graph state (term dict, forward and reverse
adjacency) unchanged, for every input: each `defaultdict` subscript the
queries perform is guarded by a membership test. -/
theorem C8_queries_leave_state_unchanged (g : GlossaryGraph) (n s t : String)
    (mx : Int) (d : Nat) :
    (get_term_st g n).2 = g ∧ (get_all_terms_st g).2 = g ∧
    (get_term_relations_st g n mx).2 = g ∧ (find_path_st g s t d).2 = g := by
  refine ⟨rfl, rfl, ?_, ?_⟩
  · by_cases hf : dictContains g.graph n <;> by_cases hr : dictContains g.reverse_graph n <;>
      simp [get_term_relations_st, hf, hr, ddSubscript_state_of_contains]
  · unfold find_path_st
    by_cases hc : dictContains g.terms s = false ∨ dictContains g.terms t = false
    · rw [if_pos hc]
    · rw [if_neg hc]
      by_cases hst : s = t
      · rw [if_pos hst]
      · rw [if_neg hst]
        have h := bfsLoop_st_state t d [(s, [s])] [s] g.graph g.reverse_graph
        rcases hbl : bfsLoop_st t d [(s, [s])] [s] g.graph g.reverse_graph
          with ⟨res, fw', rv'⟩
        rw [hbl] at h
        injection h with h1 h2
        subst h1
        subst h2
        rfl

end Glossary
